import Mathlib

/-!
Verification of the codeword-puzzle solver (`src/main.py`).

The Python program is shallowly embedded below:

* class `Letter`      → structure `Letter` (candidate `Finset Char` plus an
  optional resolved answer; Python's empty string answer is `none`);
* class `Alphabet`    → structure `Alphabet` (slots keyed by the numbers
  1–26; the Python `dict` over keys 1..26 is modelled by a total function
  `ℕ → Letter` whose mutating loops only ever touch the keys 1..26);
* `calc_regexp`       → `calc_regexp`, producing an abstract token list
  (`RTok`); the `^`/`$` anchors of the compiled pattern correspond to the
  full-match semantics of `rmatch`;
* `get_possibles`     → `get_possibles` over an `Agg` value (a Python
  `defaultdict(set)` with its key-insertion order);
* `solve_puzzle`, `extract_clues`, `extract_puzzles` → functions of the
  same names (uncaught Python exceptions in `extract_clues` are modelled
  by `Except.error`).
-/

/-- The 26 lowercase letters: `string.ascii_lowercase` as a finite set,
the initial candidate set of a `Letter`. -/
def asciiLowercase : Finset Char :=
  {'a', 'b', 'c', 'd', 'e', 'f', 'g', 'h', 'i', 'j', 'k', 'l', 'm',
   'n', 'o', 'p', 'q', 'r', 's', 't', 'u', 'v', 'w', 'x', 'y', 'z'}

/-- One numbered slot: Python class `Letter`.  `possibles` is the member
`_possibles : set[str]`, `answer` is `_answer : str` with `none` standing
for the empty string (so `Letter.answer()` returning `None` is `none`). -/
structure Letter where
  possibles : Finset Char
  answer : Option Char
deriving DecidableEq

/-- Python `Letter.__init__`: all 26 letters possible, no answer. -/
def Letter.init : Letter := ⟨asciiLowercase, none⟩

/-- Python `Letter.solve(letter)`: force-set the answer. -/
def Letter.solve (s : Letter) (l : Char) : Letter := { s with answer := some l }

/-- Python `Letter._have_solved`: if exactly one candidate is left, call
`solve` on it.  `list(self._possibles)[0]` picks the sole member of the
singleton set; any choice function agrees there, we use `Finset.min'`. -/
def Letter.haveSolved (s : Letter) : Letter :=
  if h : s.possibles.card = 1 then
    s.solve (s.possibles.min' (Finset.card_pos.mp (by omega)))
  else s

/-- Python `Letter.update(possibles)`: intersect, then auto-resolve. -/
def Letter.update (s : Letter) (ps : Finset Char) : Letter :=
  Letter.haveSolved { s with possibles := s.possibles ∩ ps }

/-- Python `Letter.remove(letter)`: erase the letter if present, then
auto-resolve; a no-op (no auto-resolve check) when absent. -/
def Letter.remove (s : Letter) (l : Char) : Letter :=
  if l ∈ s.possibles then Letter.haveSolved { s with possibles := s.possibles.erase l }
  else s

/-- Python class `Alphabet`: the `_letters` dict keyed by 1..26.  The dict
is modelled as a total function on `ℕ`; all operations of the program read
and write keys in 1..26 only, and `removePossibility` (which iterates
`self._letters.values()`) touches exactly the keys 1..26. -/
structure Alphabet where
  letters : ℕ → Letter

/-- Python `Alphabet.__init__`: a fresh `Letter` for every slot 1..26. -/
def Alphabet.init : Alphabet := ⟨fun _ => Letter.init⟩

/-- Python `Alphabet._remove_possibility(char)`: remove `char` from every
slot of the dict (keys 1..26). -/
def Alphabet.removePossibility (a : Alphabet) (c : Char) : Alphabet :=
  ⟨fun i => if 1 ≤ i ∧ i ≤ 26 then (a.letters i).remove c else a.letters i⟩

/-- Python `Alphabet.solve(number, letter)`: solve the slot, then remove
the letter from every slot (the loop in `_remove_possibility` includes the
slot just solved). -/
def Alphabet.solve (a : Alphabet) (n : ℕ) (l : Char) : Alphabet :=
  Alphabet.removePossibility ⟨Function.update a.letters n ((a.letters n).solve l)⟩ l

/-- Python `Alphabet.answer(num)`. -/
def Alphabet.answer (a : Alphabet) (n : ℕ) : Option Char := (a.letters n).answer

/-- Python `Alphabet.possibles(num)`. -/
def Alphabet.possibles (a : Alphabet) (n : ℕ) : Finset Char := (a.letters n).possibles

/-- Python `Alphabet.update(num, possibles)`: narrow one slot; if that
slot now has an answer, remove it from every slot. -/
def Alphabet.update (a : Alphabet) (n : ℕ) (ps : Finset Char) : Alphabet :=
  match ((a.letters n).update ps).answer with
  | some ans => Alphabet.removePossibility ⟨Function.update a.letters n ((a.letters n).update ps)⟩ ans
  | none => ⟨Function.update a.letters n ((a.letters n).update ps)⟩

/-- One token of the pattern built by `calc_regexp`: a literal letter, a
character class `[...]`, a capturing character class `([...])`, or a
back-reference to the k-th capturing group. -/
inductive RTok where
  | lit (c : Char)
  | cls (cs : List Char)
  | grp (cs : List Char)
  | bref (k : ℕ)
deriving DecidableEq, Repr

/-- Matching a token list against a word, with `env` the letters captured
by the groups so far (group `k` captured `env[k-1]`).  Every token
consumes exactly one character and both ends are anchored — this is the
semantics of the compiled `^...$` pattern used via `reg.match(word)`. -/
def rmatch : List RTok → List Char → List Char → Bool
  | [], [], _ => true
  | RTok.lit c :: ts, x :: xs, env => decide (x = c) && rmatch ts xs env
  | RTok.cls cs :: ts, x :: xs, env => decide (x ∈ cs) && rmatch ts xs env
  | RTok.grp cs :: ts, x :: xs, env => decide (x ∈ cs) && rmatch ts xs (env ++ [x])
  | RTok.bref k :: ts, x :: xs, env => decide (env.get? (k - 1) = some x) && rmatch ts xs env
  | _, _, _ => false

/-- The loop of Python `calc_regexp`.  `dupes` is the membership test of
the set of numbers occurring more than once in the puzzle; `dd` is the
`done_dupes` dict as its key list in insertion order, so the group index
of `num` is `dd.idxOf num + 1` (Python stores `len(done_dupes) + 1`). -/
def calcRegexpGo (a : Alphabet) (dupes : ℕ → Bool) : List ℕ → List ℕ → List RTok
  | [], _ => []
  | num :: rest, dd =>
    match a.answer num with
    | some ans => RTok.lit ans :: calcRegexpGo a dupes rest dd
    | none =>
      if dupes num then
        if num ∈ dd then RTok.bref (dd.indexOf num + 1) :: calcRegexpGo a dupes rest dd
        else RTok.grp (Finset.sort (· ≤ ·) (a.possibles num)) :: calcRegexpGo a dupes rest (dd ++ [num])
      else RTok.cls (Finset.sort (· ≤ ·) (a.possibles num)) :: calcRegexpGo a dupes rest dd

/-- Python `calc_regexp(alphabet, puzzle)`: one token per puzzle position;
a solved number contributes its literal answer, an unsolved number a
character class of its sorted candidates (`"".join(sorted(list(...)))`),
capturing at the first occurrence of a repeated number and replaced by a
back-reference at later occurrences.  The surrounding `^`/`$` anchors live
in `rmatch`. -/
def calc_regexp (a : Alphabet) (puzzle : List ℕ) : List RTok :=
  calcRegexpGo a (fun num => decide (1 < puzzle.count num)) puzzle []

/-- The aggregate built by `get_possibles`: a Python `defaultdict(set)`
keyed by slot numbers, with `keys` its key list in insertion order and
`val` its contents (`∅` for absent keys). -/
structure Agg where
  keys : List ℕ
  val : ℕ → Finset Char

/-- The empty dict `{}`. -/
def Agg.empty : Agg := ⟨[], fun _ => ∅⟩

/-- Python `possibles[n].add(c)` on a `defaultdict(set)`: accessing the
key inserts it (at the end of the key order) if absent. -/
def Agg.add (g : Agg) (n : ℕ) (c : Char) : Agg :=
  ⟨if n ∈ g.keys then g.keys else g.keys ++ [n],
   Function.update g.val n (insert c (g.val n))⟩

/-- The inner loop of `get_possibles` for one matching word:
`for num, char in enumerate(word): possibles[puzzle[num]].add(char)`.
Simultaneous recursion on the two lists models indexing `puzzle[num]`
for `num < len(word)` (matching words are never longer than the puzzle,
since the pattern has one token per puzzle position). -/
def addWord (g : Agg) : List ℕ → List Char → Agg
  | n :: ns, c :: cs => addWord (g.add n c) ns cs
  | _, _ => g

/-- One dictionary step of `get_possibles`: aggregate the word if the
pattern matches it, and record that some word matched. -/
def possStep (puzzle : List ℕ) (toks : List RTok) (st : Agg × Bool) (w : List Char) : Agg × Bool :=
  if rmatch toks w [] = true then (addWord st.1 puzzle w, true) else st

/-- Python `get_possibles(puzzle, reg, dictionary)`: scan the dictionary,
aggregating per-position letters of matching words; if no word matched,
return the empty dict `{}` (after printing a diagnostic). -/
def get_possibles (puzzle : List ℕ) (toks : List RTok) (dictionary : List (List Char)) : Agg :=
  if (dictionary.foldl (possStep puzzle toks) (Agg.empty, false)).2 = true then
    (dictionary.foldl (possStep puzzle toks) (Agg.empty, false)).1
  else Agg.empty

/-- Python `solve_puzzle(alphabet, puzzle, dictionary)`: build the
pattern, aggregate the matches, then `alphabet.update(num, poss)` for each
aggregate entry in dict order. -/
def solve_puzzle (a : Alphabet) (puzzle : List ℕ) (dictionary : List (List Char)) : Alphabet :=
  (get_possibles puzzle (calc_regexp a puzzle) dictionary).keys.foldl
    (fun acc num => acc.update num ((get_possibles puzzle (calc_regexp a puzzle) dictionary).val num)) a

/-- Python `str.split(sep)` for a one-character separator: every
occurrence of the separator cuts, empty fields are kept. -/
def splitOnChar (sep : Char) : List Char → List (List Char)
  | [] => [[]]
  | c :: rest =>
    if c = sep then [] :: splitOnChar sep rest
    else
      match splitOnChar sep rest with
      | g :: gs => (c :: g) :: gs
      | [] => [[c]]

/-- Python `str.split()` (no argument) for space-separated lines: split on
runs of spaces, dropping empty fields. -/
def splitWhite (s : List Char) : List (List Char) :=
  (splitOnChar ' ' s).filter (fun t => t ≠ [])

/-- Python `int(s)` for the strings that occur in puzzle files: defined on
non-empty all-digit strings, `none` models the `ValueError` raised on
anything else. -/
def str_toNat? (s : List Char) : Option ℕ :=
  if s ≠ [] ∧ s.all Char.isDigit then
    some (s.foldl (fun acc c => acc * 10 + (c.toNat - 48)) 0)
  else none

/-- Python `extract_clues(alphabet, puzzle)`.  A line starting with an
ASCII letter is a clue; splitting on `=` into other than two fields is the
`ValueError` that IS caught (diagnostic, skip).  `int(number)` failing and
`self._letters[number]` on a key outside 1..26 are an uncaught
`ValueError` resp. `KeyError`; both abort the run and are modelled by
`Except.error line`.  The clue letter stored is the lowercased letter
field (clue letters are single characters; we take the head). -/
def extract_clues (a : Alphabet) : List (List Char) → Except (List Char) Alphabet
  | [] => Except.ok a
  | line :: rest =>
    if (line.headD ' ').isAlpha then
      match splitOnChar '=' line with
      | [l, numS] =>
        match str_toNat? numS with
        | some n =>
          if 1 ≤ n ∧ n ≤ 26 then extract_clues (a.solve n ((l.headD ' ').toLower)) rest
          else Except.error line
        | none => Except.error line
      | _ => extract_clues a rest
    else extract_clues a rest

/-- Python `extract_puzzles(raw_puzzle)`: skip lines starting with an
ASCII letter; a non-numeric token (`ValueError`, caught) or a number
outside 1..26 skips the line with a diagnostic; otherwise keep the parsed
number list. -/
def extract_puzzles : List (List Char) → List (List ℕ)
  | [] => []
  | line :: rest =>
    if (line.headD ' ').isAlpha then extract_puzzles rest
    else
      match (splitWhite line).mapM str_toNat? with
      | none => extract_puzzles rest
      | some nums =>
        if nums.any (fun n => decide (26 < n) || decide (n < 1)) then extract_puzzles rest
        else nums :: extract_puzzles rest

/-!
## Basic lemmas about the embedded operations
-/

/-- Auto-resolution never changes the candidate set. -/
theorem Letter.haveSolved_possibles (s : Letter) : s.haveSolved.possibles = s.possibles := by
  unfold Letter.haveSolved
  split <;> rfl

/-- Auto-resolution is the identity unless exactly one candidate is left. -/
theorem Letter.haveSolved_of_card_ne (s : Letter) (h : s.possibles.card ≠ 1) :
    s.haveSolved = s := by
  unfold Letter.haveSolved
  exact dif_neg h

/-- On a singleton candidate set, auto-resolution solves with its member. -/
theorem Letter.haveSolved_singleton (s : Letter) (x : Char) (h : s.possibles = {x}) :
    s.haveSolved = s.solve x := by
  unfold Letter.haveSolved
  rw [dif_pos (by rw [h]; exact Finset.card_singleton x)]
  congr 1
  have : s.possibles.min' (by rw [h]; exact ⟨x, Finset.mem_singleton_self x⟩) = x := by
    simp [h]
  simpa using this

/-- Python `update` intersects the candidate set. -/
theorem Letter.update_possibles (s : Letter) (ps : Finset Char) :
    (s.update ps).possibles = s.possibles ∩ ps := by
  unfold Letter.update
  rw [Letter.haveSolved_possibles]

/-- Python `remove` erases the letter from the candidate set (a no-op when
the letter is absent). -/
theorem Letter.remove_possibles (s : Letter) (l : Char) :
    (s.remove l).possibles = s.possibles.erase l := by
  unfold Letter.remove
  split
  · rw [Letter.haveSolved_possibles]
  · rename_i h
    exact (Finset.erase_eq_of_not_mem h).symm

/-- Removing an absent letter changes nothing. -/
theorem Letter.remove_of_not_mem (s : Letter) (l : Char) (h : l ∉ s.possibles) :
    s.remove l = s := by
  unfold Letter.remove
  exact if_neg h

/-- After removing a letter it is no longer a candidate. -/
theorem Letter.not_mem_remove (s : Letter) (l : Char) : l ∉ (s.remove l).possibles := by
  rw [Letter.remove_possibles]
  exact Finset.not_mem_erase l s.possibles

/-- If intersecting leaves a singleton, `update` resolves to its member. -/
theorem Letter.update_answer_singleton (s : Letter) (ps : Finset Char) (x : Char)
    (h : s.possibles ∩ ps = {x}) : (s.update ps).answer = some x := by
  unfold Letter.update
  rw [Letter.haveSolved_singleton _ x (by simpa using h)]
  rfl

/-- If erasing a present letter leaves a singleton, `remove` resolves to
its member. -/
theorem Letter.remove_answer_singleton (s : Letter) (l : Char) (x : Char)
    (hmem : l ∈ s.possibles) (h : s.possibles.erase l = {x}) :
    (s.remove l).answer = some x := by
  unfold Letter.remove
  rw [if_pos hmem, Letter.haveSolved_singleton _ x (by simpa using h)]
  rfl

/-- If erasing a present letter does not leave a singleton, `remove` keeps
the previous answer. -/
theorem Letter.remove_answer_of_card_ne (s : Letter) (l : Char)
    (h : (s.possibles.erase l).card ≠ 1) : (s.remove l).answer = s.answer := by
  unfold Letter.remove
  split
  · rw [Letter.haveSolved_of_card_ne _ (by simpa using h)]
  · rfl

/-- Two `Alphabet` values with the same slots are equal. -/
theorem Alphabet.ext' (a b : Alphabet) (h : a.letters = b.letters) : a = b := by
  cases a
  cases b
  simpa using h

/-- Unfolding of `removePossibility` at one slot. -/
theorem Alphabet.removePossibility_letters (a : Alphabet) (c : Char) (i : ℕ) :
    (a.removePossibility c).letters i =
      if 1 ≤ i ∧ i ≤ 26 then (a.letters i).remove c else a.letters i := rfl

/-- Slot-wise candidate sets after `Alphabet.solve`: every slot in 1..26,
the solved slot included, loses the solved letter. -/
theorem Alphabet.solve_possibles (a : Alphabet) (n : ℕ) (l : Char) (i : ℕ)
    (h1 : 1 ≤ i) (h2 : i ≤ 26) :
    (a.solve n l).possibles i = (a.possibles i).erase l := by
  show ((Alphabet.removePossibility ⟨Function.update a.letters n ((a.letters n).solve l)⟩ l).letters i).possibles = _
  rw [Alphabet.removePossibility_letters, if_pos ⟨h1, h2⟩, Letter.remove_possibles]
  show (Function.update a.letters n ((a.letters n).solve l) i).possibles.erase l = _
  by_cases hi : i = n
  · subst hi
    rw [Function.update_same]
    rfl
  · rw [Function.update_noteq hi]
    rfl

/-- Slot-wise candidate sets after `removePossibility`. -/
theorem Alphabet.removePossibility_possibles (a : Alphabet) (c : Char) (i : ℕ)
    (h1 : 1 ≤ i) (h2 : i ≤ 26) :
    (a.removePossibility c).possibles i = (a.possibles i).erase c := by
  show ((a.removePossibility c).letters i).possibles = _
  rw [Alphabet.removePossibility_letters, if_pos ⟨h1, h2⟩, Letter.remove_possibles]
  rfl

/-- Re-solving a letter with its current answer changes nothing. -/
theorem Letter.solve_eq_self (t : Letter) (l : Char) (h : t.answer = some l) :
    t.solve l = t := by
  cases t with
  | mk p ans =>
    simp only [Letter.solve]
    simp only [Letter.answer] at h
    rw [h]

/-- The answer of the solved slot after `Alphabet.solve`, when the
propagated removal does not shrink that slot to a new singleton: the
provided letter. -/
theorem Alphabet.solve_answer_of_not_resolve (a : Alphabet) (n : ℕ) (l : Char)
    (h1 : 1 ≤ n) (h2 : n ≤ 26)
    (h : ¬(l ∈ a.possibles n ∧ ((a.possibles n).erase l).card = 1)) :
    (a.solve n l).answer n = some l := by
  show ((Alphabet.removePossibility ⟨Function.update a.letters n ((a.letters n).solve l)⟩ l).letters n).answer = some l
  rw [Alphabet.removePossibility_letters, if_pos ⟨h1, h2⟩]
  show ((Function.update a.letters n ((a.letters n).solve l) n).remove l).answer = some l
  rw [Function.update_same]
  by_cases hm : l ∈ a.possibles n
  · have hc : ((((a.letters n).solve l).possibles).erase l).card ≠ 1 := fun hc => h ⟨hm, hc⟩
    rw [Letter.remove_answer_of_card_ne _ _ hc]
    rfl
  · rw [Letter.remove_of_not_mem ((a.letters n).solve l) l hm]
    rfl

/-- The answer of the solved slot after `Alphabet.solve`, when the
propagated removal leaves that slot a singleton: auto-resolution
overwrites the provided letter with the surviving candidate. -/
theorem Alphabet.solve_answer_resolve (a : Alphabet) (n : ℕ) (l x : Char)
    (h1 : 1 ≤ n) (h2 : n ≤ 26)
    (hmem : l ∈ a.possibles n) (hx : (a.possibles n).erase l = {x}) :
    (a.solve n l).answer n = some x := by
  show ((Alphabet.removePossibility ⟨Function.update a.letters n ((a.letters n).solve l)⟩ l).letters n).answer = some x
  rw [Alphabet.removePossibility_letters, if_pos ⟨h1, h2⟩]
  show ((Function.update a.letters n ((a.letters n).solve l) n).remove l).answer = some x
  rw [Function.update_same]
  exact Letter.remove_answer_singleton _ _ _ hmem hx

/-- Unfolding `Alphabet.update` when the narrowed slot has an answer. -/
theorem Alphabet.update_eq_of_answer_some (a : Alphabet) (n : ℕ) (S : Finset Char) (x : Char)
    (h : ((a.letters n).update S).answer = some x) :
    a.update n S = Alphabet.removePossibility ⟨Function.update a.letters n ((a.letters n).update S)⟩ x := by
  unfold Alphabet.update
  rw [h]

/-!
## C1: the global uniqueness invariant and cascading elimination
-/

/-- The reachable state exhibiting the missing cascade propagation:
`Alphabet(); update(1, {a,b}); update(2, {a})`. -/
def alphaC1 : Alphabet := (Alphabet.init.update 1 {'a', 'b'}).update 2 {'a'}

/-- C1.  The global uniqueness invariant fails on a reachable state: after
`update(1, {a,b}); update(2, {a})` the propagation of 'a' shrinks slot 1 to
the singleton {b}, which auto-resolves slot 1 to 'b' — but this cascaded
resolution is not itself propagated, so 'b' stays a candidate of slot 3,
and a further `update(3, {b})` resolves slot 3 to 'b' as well: two
distinct slots end with the same answer. -/
theorem C1_global_uniqueness_violated :
    alphaC1.answer 1 = some 'b' ∧
    'b' ∈ alphaC1.possibles 3 ∧
    (alphaC1.update 3 {'b'}).answer 1 = some 'b' ∧
    (alphaC1.update 3 {'b'}).answer 3 = some 'b' := by
  decide

/-!
## C2: answer-iff-singleton invariant of `Letter`
-/

/-- C2, counterexample.  The reachable `Letter` state
`Letter(); update({a}); remove(a)` has a non-empty answer with an empty
candidate set: the claimed equivalence between a non-empty answer and a
singleton candidate set fails, and `remove` does mutate the candidate set
of a solved slot away from its singleton. -/
theorem C2_counterexample :
    ((Letter.init.update {'a'}).remove 'a').answer = some 'a' ∧
    ((Letter.init.update {'a'}).remove 'a').possibles = ∅ := by
  decide

/-- C2, amended.  The auto-resolution direction holds: whenever an
`update`, or a `remove` of a present letter, leaves the candidate set a
singleton, the answer equals that sole survivor.  (The converse direction
of the claim is false: `solve` sets the answer without touching the
candidates, and further mutations can shrink a solved slot's set to ∅, as
the counterexample shows.) -/
theorem C2_auto_resolve (s : Letter) (ps : Finset Char) (l x : Char) :
    ((s.update ps).possibles = {x} → (s.update ps).answer = some x) ∧
    (l ∈ s.possibles → (s.remove l).possibles = {x} → (s.remove l).answer = some x) := by
  constructor
  · intro h
    rw [Letter.update_possibles] at h
    exact Letter.update_answer_singleton s ps x h
  · intro hmem h
    rw [Letter.remove_possibles] at h
    exact Letter.remove_answer_singleton s l x hmem h

/-- Witness for the amended C2 at concrete inputs. -/
theorem C2_witness :
    (Letter.init.update {'q'}).answer = some 'q' ∧
    ((Letter.init.update {'m', 'n'}).remove 'm').answer = some 'n' :=
  ⟨(C2_auto_resolve Letter.init {'q'} 'z' 'q').1 (by decide),
   (C2_auto_resolve (Letter.init.update {'m', 'n'}) ∅ 'm' 'n').2 (by decide) (by decide)⟩

/-!
## C3: what `Alphabet.solve` does
-/

/-- C3, counterexample.  `Alphabet.solve` removes the solved letter from
the solved slot's own candidate set as well (on a fresh state, slot 1
loses 'a'), and when the removal leaves that slot another singleton the
answer is even overwritten: from candidates {a,b}, `solve(1,'a')` ends
with answer 'b', not 'a'. -/
theorem C3_counterexample :
    (Alphabet.init.solve 1 'a').possibles 1 = asciiLowercase.erase 'a' ∧
    Alphabet.init.possibles 1 = asciiLowercase ∧
    ((Alphabet.init.update 1 {'a', 'b'}).solve 1 'a').answer 1 = some 'b' ∧
    ((Alphabet.init.update 1 {'a', 'b'}).solve 1 'a').possibles 1 = {'b'} := by
  decide

/-- C3, amended.  For n in 1..26, `Alphabet.solve(n, l)` erases l from the
candidate set of every slot, the slot n itself included; slot n's answer
becomes l, except when l was a candidate of slot n and its removal leaves
exactly one candidate, in which case auto-resolution overwrites the answer
with that surviving candidate. -/
theorem C3_solve_characterization (a : Alphabet) (n : ℕ) (l : Char)
    (h1 : 1 ≤ n) (h2 : n ≤ 26) :
    (∀ i, 1 ≤ i → i ≤ 26 → (a.solve n l).possibles i = (a.possibles i).erase l) ∧
    (¬(l ∈ a.possibles n ∧ ((a.possibles n).erase l).card = 1) →
      (a.solve n l).answer n = some l) ∧
    (∀ x, l ∈ a.possibles n → (a.possibles n).erase l = {x} →
      (a.solve n l).answer n = some x) := by
  refine ⟨fun i hi1 hi2 => Alphabet.solve_possibles a n l i hi1 hi2, ?_, ?_⟩
  · exact Alphabet.solve_answer_of_not_resolve a n l h1 h2
  · exact fun x hmem hx => Alphabet.solve_answer_resolve a n l x h1 h2 hmem hx

/-- Witness for the amended C3 at concrete inputs. -/
theorem C3_witness :
    (Alphabet.init.solve 1 'a').possibles 1 = (Alphabet.init.possibles 1).erase 'a' ∧
    (Alphabet.init.solve 1 'a').possibles 2 = (Alphabet.init.possibles 2).erase 'a' ∧
    (Alphabet.init.solve 1 'a').answer 1 = some 'a' :=
  ⟨(C3_solve_characterization Alphabet.init 1 'a' (by decide) (by decide)).1 1 (by decide) (by decide),
   (C3_solve_characterization Alphabet.init 1 'a' (by decide) (by decide)).1 2 (by decide) (by decide),
   (C3_solve_characterization Alphabet.init 1 'a' (by decide) (by decide)).2.1 (by decide)⟩

/-!
## C4: a newly resolved `update` empties its own slot
-/

/-- C4.  If `Alphabet.update(n, S)` shrinks slot n to the singleton {x},
the propagation removes x from every slot of the dict, slot n itself
included, so slot n's candidate set ends empty. -/
theorem C4_update_resolution_empties_slot (a : Alphabet) (n : ℕ) (S : Finset Char) (x : Char)
    (h1 : 1 ≤ n) (h2 : n ≤ 26) (_hnew : a.answer n = none)
    (hx : a.possibles n ∩ S = {x}) :
    (a.update n S).possibles n = ∅ ∧
    ∀ i, 1 ≤ i → i ≤ 26 → x ∉ (a.update n S).possibles i := by
  have hans : ((a.letters n).update S).answer = some x :=
    Letter.update_answer_singleton (a.letters n) S x hx
  rw [Alphabet.update_eq_of_answer_some a n S x hans]
  constructor
  · rw [Alphabet.removePossibility_possibles _ _ _ h1 h2]
    show ((Function.update a.letters n ((a.letters n).update S) n).possibles).erase x = ∅
    rw [Function.update_same, Letter.update_possibles]
    rw [show (a.letters n).possibles ∩ S = {x} from hx]
    exact Finset.erase_singleton x
  · intro i hi1 hi2
    rw [Alphabet.removePossibility_possibles _ _ _ hi1 hi2]
    exact Finset.not_mem_erase x _

/-- Witness for C4 at concrete inputs. -/
theorem C4_witness :
    (Alphabet.init.update 1 {'a'}).possibles 1 = ∅ ∧
    ∀ i, 1 ≤ i → i ≤ 26 → 'a' ∉ (Alphabet.init.update 1 {'a'}).possibles i :=
  C4_update_resolution_empties_slot Alphabet.init 1 {'a'} 'a'
    (by decide) (by decide) (by decide) (by decide)

/-!
## C6: monotonic narrowing of one slot
-/

/-- C6.  `update` replaces the candidate set by its intersection with the
new possibilities — a subset of the old set — and `remove` erases at most
one letter; in both cases the candidate set, and hence its size, never
grows. -/
theorem C6_monotonic_narrowing (s : Letter) (ps : Finset Char) (l : Char) :
    (s.update ps).possibles = s.possibles ∩ ps ∧
    (s.update ps).possibles ⊆ s.possibles ∧
    (s.remove l).possibles ⊆ s.possibles ∧
    (s.update ps).possibles.card ≤ s.possibles.card ∧
    (s.remove l).possibles.card ≤ s.possibles.card := by
  have hu : (s.update ps).possibles = s.possibles ∩ ps := Letter.update_possibles s ps
  have hus : (s.update ps).possibles ⊆ s.possibles := by
    rw [hu]
    exact Finset.inter_subset_left
  have hrs : (s.remove l).possibles ⊆ s.possibles := by
    rw [Letter.remove_possibles]
    exact Finset.erase_subset l s.possibles
  exact ⟨hu, hus, hrs, Finset.card_le_card hus, Finset.card_le_card hrs⟩

/-!
## C9: idempotence of `Alphabet.solve`
-/

/-- C9, counterexample.  From the reachable state with slot 1 candidates
{a,b}, the first `solve(1,'a')` ends with slot 1 answered 'b' (the
propagated removal of 'a' auto-resolves the slot to 'b'), while the second
`solve(1,'a')` overwrites the answer back to 'a': the two states differ,
so `solve` applied twice is not the same as applied once. -/
theorem C9_counterexample :
    (((Alphabet.init.update 1 {'a', 'b'}).solve 1 'a').solve 1 'a').answer 1 = some 'a' ∧
    ((Alphabet.init.update 1 {'a', 'b'}).solve 1 'a').answer 1 = some 'b' := by
  decide

/-- C9, amended.  `solve(n, l)` applied twice yields the same state as
applied once, provided the first call leaves slot n's answer equal to l
(which fails exactly when the propagated removal of l auto-resolves slot n
to a different letter, as in the counterexample). -/
theorem C9_solve_idempotent_conditional (a : Alphabet) (n : ℕ) (l : Char)
    (h : (a.solve n l).answer n = some l) :
    (a.solve n l).solve n l = a.solve n l := by
  apply Alphabet.ext'
  funext i
  show (Alphabet.removePossibility ⟨Function.update (a.solve n l).letters n (((a.solve n l).letters n).solve l)⟩ l).letters i = (a.solve n l).letters i
  rw [Letter.solve_eq_self _ _ h, Function.update_eq_self, Alphabet.removePossibility_letters]
  split
  · rename_i hi
    apply Letter.remove_of_not_mem
    show l ∉ (a.solve n l).possibles i
    rw [Alphabet.solve_possibles a n l i hi.1 hi.2]
    exact Finset.not_mem_erase l _
  · rfl

/-- Witness for the amended C9 at concrete inputs. -/
theorem C9_witness :
    (Alphabet.init.solve 1 'a').solve 1 'a' = Alphabet.init.solve 1 'a' :=
  C9_solve_idempotent_conditional Alphabet.init 1 'a' (by decide)

/-!
## Pattern construction and matching: concrete evaluation helpers
-/

/-- A sorted list that is a permutation of a finite set of characters is
its canonical sorted enumeration. -/
theorem sort_eq_of (s : Finset Char) (L : List Char)
    (h1 : s.val = (L : Multiset Char)) (h2 : L.Sorted (· ≤ ·)) :
    Finset.sort (· ≤ ·) s = L := by
  refine List.eq_of_perm_of_sorted ?_ (Finset.sort_sorted _ _) h2
  refine Multiset.coe_eq_coe.mp ?_
  show ((Multiset.sort _ s.val : List Char) : Multiset Char) = _
  rw [Multiset.sort_eq, h1]

/-- The 26 lowercase letters in order. -/
def lowercaseList : List Char :=
  ['a', 'b', 'c', 'd', 'e', 'f', 'g', 'h', 'i', 'j', 'k', 'l', 'm',
   'n', 'o', 'p', 'q', 'r', 's', 't', 'u', 'v', 'w', 'x', 'y', 'z']

/-- The 25 lowercase letters other than 'a', in order: the candidate list
of an untouched slot after 'a' has been excluded. -/
def noA : List Char :=
  ['b', 'c', 'd', 'e', 'f', 'g', 'h', 'i', 'j', 'k', 'l', 'm',
   'n', 'o', 'p', 'q', 'r', 's', 't', 'u', 'v', 'w', 'x', 'y', 'z']

/-- The Alphabet state of the C5 scenario: slot 1 solved to 'a', all other
slots untouched. -/
def alpha5 : Alphabet := Alphabet.init.solve 1 'a'

theorem alpha5_ans1 : alpha5.answer 1 = some 'a' := by decide

theorem alpha5_ans2 : alpha5.answer 2 = none := by decide

theorem alpha5_ans3 : alpha5.answer 3 = none := by decide

theorem alpha5_sort2 : Finset.sort (· ≤ ·) (alpha5.possibles 2) = noA :=
  sort_eq_of _ _ (by decide) (by decide)

theorem alpha5_sort3 : Finset.sort (· ≤ ·) (alpha5.possibles 3) = noA :=
  sort_eq_of _ _ (by decide) (by decide)

theorem sort_asciiLowercase : Finset.sort (· ≤ ·) asciiLowercase = lowercaseList :=
  sort_eq_of _ _ (by decide) (by decide)

/-!
## C5: duplicate puzzle positions become capture plus back-reference
-/

/-- The behavioral contract of pattern matching, written as the spec's
alternative mechanism (design note 9): a position-by-position matcher with
an explicit binding table.  `dd` lists the repeated unresolved numbers
already captured (in order of first occurrence) and `env` their captured
letters, so `env.get? (dd.indexOf num)` is the letter bound to `num`.
Proven below to coincide with `rmatch` applied to the `calcRegexpGo`
token list. -/
def refMatch (a : Alphabet) (dupes : ℕ → Bool) : List ℕ → List ℕ → List Char → List Char → Bool
  | [], _, _, [] => true
  | num :: rest, dd, env, x :: xs =>
    match a.answer num with
    | some ans => decide (x = ans) && refMatch a dupes rest dd env xs
    | none =>
      if dupes num then
        if num ∈ dd then
          decide (env.get? (dd.indexOf num) = some x) && refMatch a dupes rest dd env xs
        else
          decide (x ∈ a.possibles num) && refMatch a dupes rest (dd ++ [num]) (env ++ [x]) xs
      else decide (x ∈ a.possibles num) && refMatch a dupes rest dd env xs
  | _, _, _, _ => false

/-- The compiled pattern matches exactly as the binding-table matcher
does: back-references implement lookups of the captured letters. -/
theorem rmatch_go_eq_ref (a : Alphabet) (dupes : ℕ → Bool) :
    ∀ (rest : List ℕ) (dd : List ℕ) (env w : List Char),
      rmatch (calcRegexpGo a dupes rest dd) w env = refMatch a dupes rest dd env w := by
  intro rest
  induction rest with
  | nil =>
    intro dd env w
    cases w <;> simp [calcRegexpGo, rmatch, refMatch]
  | cons num rest ih =>
    intro dd env w
    rcases hans : a.answer num with _ | ans
    · by_cases hd : dupes num
      · by_cases hmem : num ∈ dd
        · cases w with
          | nil => simp [calcRegexpGo, hans, hd, hmem, rmatch, refMatch]
          | cons x xs =>
            simp [calcRegexpGo, hans, hd, hmem, rmatch, refMatch, ih, Nat.add_sub_cancel]
        · cases w with
          | nil => simp [calcRegexpGo, hans, hd, hmem, rmatch, refMatch]
          | cons x xs =>
            simp [calcRegexpGo, hans, hd, hmem, rmatch, refMatch, ih, Finset.mem_sort]
      · cases w with
        | nil => simp [calcRegexpGo, hans, hd, rmatch, refMatch]
        | cons x xs =>
          simp [calcRegexpGo, hans, hd, rmatch, refMatch, ih, Finset.mem_sort]
    · cases w with
      | nil => simp [calcRegexpGo, hans, rmatch, refMatch]
      | cons x xs => simp [calcRegexpGo, hans, rmatch, refMatch, ih]

/-- If a repeated element is appended to a table it is found at the old
length. -/
theorem indexOf_append_self (dd : List ℕ) (m : ℕ) (h : m ∉ dd) :
    List.indexOf m (dd ++ [m]) = dd.length := by
  induction dd with
  | nil => simp
  | cons a dd ih =>
    have hne : a ≠ m := fun he => h (he ▸ List.mem_cons_self a dd)
    rw [List.cons_append, List.indexOf_cons_ne _ hne, ih fun hm => h (List.mem_cons_of_mem a hm)]
    rfl

/-- Soundness of the binding-table matcher: a matching word has the
pattern's length, decodes a resolved number to its answer and an
unresolved number to one of its candidates at every position, agrees with
the binding table on already-captured numbers, and gives all occurrences
of an unresolved repeated number the same letter. -/
theorem refMatch_sound (a : Alphabet) (dupes : ℕ → Bool) :
    ∀ (rest : List ℕ) (dd : List ℕ) (env : List Char) (w : List Char),
      refMatch a dupes rest dd env w = true →
      dd.length = env.length →
      (∀ num, num ∈ dd → a.answer num = none ∧
        ∃ c, env.get? (dd.indexOf num) = some c ∧ c ∈ a.possibles num) →
      w.length = rest.length ∧
      (∀ j num x, rest.get? j = some num → w.get? j = some x →
        (∀ ans, a.answer num = some ans → x = ans) ∧
        (a.answer num = none → x ∈ a.possibles num)) ∧
      (∀ j num x, rest.get? j = some num → w.get? j = some x → a.answer num = none →
        dupes num = true → num ∈ dd → env.get? (dd.indexOf num) = some x) ∧
      (∀ i j num, rest.get? i = some num → rest.get? j = some num → a.answer num = none →
        dupes num = true → w.get? i = w.get? j) := by
  intro rest
  induction rest with
  | nil =>
    intro dd env w hm _ _
    cases w with
    | nil => refine ⟨rfl, ?_, ?_, ?_⟩ <;> intro j <;> simp
    | cons x xs => exact absurd hm (by simp [refMatch])
  | cons num rest ih =>
    intro dd env w hm hlen hinv
    cases w with
    | nil =>
      exact absurd hm (by cases hans : a.answer num <;> simp [refMatch, hans])
    | cons x xs =>
      rcases hans : a.answer num with _ | ans
      · by_cases hd : dupes num = true
        · by_cases hmem : num ∈ dd
          · -- already-captured repeated number: back-reference lookup
            rw [show refMatch a dupes (num :: rest) dd env (x :: xs) =
                (decide (env.get? (dd.indexOf num) = some x) &&
                  refMatch a dupes rest dd env xs) from by
                  simp [refMatch, hans, hd, hmem]] at hm
            rw [Bool.and_eq_true, decide_eq_true_eq] at hm
            obtain ⟨henv, hrec⟩ := hm
            obtain ⟨L, P, K, I⟩ := ih dd env xs hrec hlen hinv
            have hget : ∀ j y, rest.get? j = some y → ∃ z, xs.get? j = some z := by
              intro j y hj
              cases hz : xs.get? j with
              | none =>
                have h1 : rest.length ≤ j := L ▸ List.get?_eq_none.mp hz
                have h2 : ¬rest.get? j = none := fun hc => by rw [hc] at hj; cases hj
                exact absurd (List.get?_eq_none.mpr h1) h2
              | some z => exact ⟨z, rfl⟩
            refine ⟨by simpa using L, ?_, ?_, ?_⟩
            · intro j num' x' hj hx
              cases j with
              | zero =>
                obtain rfl : num' = num := by simpa using hj.symm
                obtain rfl : x' = x := by simpa using hx.symm
                refine ⟨fun ans' hans' => absurd (hans ▸ hans') (by simp), fun _ => ?_⟩
                obtain ⟨-, c, hc, hcp⟩ := hinv num' hmem
                rw [henv] at hc
                obtain rfl : x' = c := by simpa using hc
                exact hcp
              | succ j => exact P j num' x' (by simpa using hj) (by simpa using hx)
            · intro j num' x' hj hx hans' hd' hmem'
              cases j with
              | zero =>
                obtain rfl : num' = num := by simpa using hj.symm
                obtain rfl : x' = x := by simpa using hx.symm
                exact henv
              | succ j => exact K j num' x' (by simpa using hj) (by simpa using hx) hans' hd' hmem'
            · have key : ∀ j, rest.get? j = some num → (xs.get? j = some x) := by
                intro j hj
                obtain ⟨z, hz⟩ := hget j num hj
                have := K j num z hj hz hans hd hmem
                rw [henv] at this
                obtain rfl : x = z := by simpa using this
                exact hz
              intro i j num' hi hj hans' hd'
              match i, j with
              | 0, 0 => rfl
              | 0, j + 1 =>
                obtain rfl : num' = num := by simpa using hi.symm
                show some x = xs.get? j
                exact (key j (by simpa using hj)).symm
              | i + 1, 0 =>
                obtain rfl : num' = num := by simpa using hj.symm
                show xs.get? i = some x
                exact key i (by simpa using hi)
              | i + 1, j + 1 =>
                exact I i j num' (by simpa using hi) (by simpa using hj) hans' hd'
          · -- first occurrence of a repeated number: capture
            rw [show refMatch a dupes (num :: rest) dd env (x :: xs) =
                (decide (x ∈ a.possibles num) &&
                  refMatch a dupes rest (dd ++ [num]) (env ++ [x]) xs) from by
                  simp [refMatch, hans, hd, hmem]] at hm
            rw [Bool.and_eq_true, decide_eq_true_eq] at hm
            obtain ⟨hxp, hrec⟩ := hm
            have hidx : List.indexOf num (dd ++ [num]) = dd.length := indexOf_append_self dd num hmem
            have hlen' : (dd ++ [num]).length = (env ++ [x]).length := by simp [hlen]
            have hinv' : ∀ m, m ∈ dd ++ [num] → a.answer m = none ∧
                ∃ c, (env ++ [x]).get? (List.indexOf m (dd ++ [num])) = some c ∧
                  c ∈ a.possibles m := by
              intro m hmm
              rcases List.mem_append.mp hmm with hmm | hmm
              · obtain ⟨hansm, c, hc, hcp⟩ := hinv m hmm
                refine ⟨hansm, c, ?_, hcp⟩
                rw [List.indexOf_append_of_mem hmm,
                  List.get?_append (by rw [← hlen]; exact List.indexOf_lt_length.mpr hmm)]
                exact hc
              · obtain rfl : m = num := by simpa using hmm
                refine ⟨hans, x, ?_, hxp⟩
                rw [hidx, hlen, List.get?_concat_length]
            obtain ⟨L, P, K, I⟩ := ih (dd ++ [num]) (env ++ [x]) xs hrec hlen' hinv'
            have hget : ∀ j y, rest.get? j = some y → ∃ z, xs.get? j = some z := by
              intro j y hj
              cases hz : xs.get? j with
              | none =>
                have h1 : rest.length ≤ j := L ▸ List.get?_eq_none.mp hz
                have h2 : ¬rest.get? j = none := fun hc => by rw [hc] at hj; cases hj
                exact absurd (List.get?_eq_none.mpr h1) h2
              | some z => exact ⟨z, rfl⟩
            have key : ∀ j, rest.get? j = some num → (xs.get? j = some x) := by
              intro j hj
              obtain ⟨z, hz⟩ := hget j num hj
              have := K j num z hj hz hans hd (by simp)
              rw [hidx, hlen, List.get?_concat_length] at this
              obtain rfl : x = z := by simpa using this
              exact hz
            refine ⟨by simpa using L, ?_, ?_, ?_⟩
            · intro j num' x' hj hx
              cases j with
              | zero =>
                obtain rfl : num' = num := by simpa using hj.symm
                obtain rfl : x' = x := by simpa using hx.symm
                exact ⟨fun ans' hans' => absurd (hans ▸ hans') (by simp), fun _ => hxp⟩
              | succ j => exact P j num' x' (by simpa using hj) (by simpa using hx)
            · intro j num' x' hj hx hans' hd' hmem'
              cases j with
              | zero =>
                obtain rfl : num' = num := by simpa using hj.symm
                exact absurd hmem' hmem
              | succ j =>
                have hmem'' : num' ∈ dd ++ [num] := List.mem_append.mpr (Or.inl hmem')
                have := K j num' x' (by simpa using hj) (by simpa using hx) hans' hd' hmem''
                rw [List.indexOf_append_of_mem hmem',
                  List.get?_append (by rw [← hlen]; exact List.indexOf_lt_length.mpr hmem')] at this
                exact this
            · intro i j num' hi hj hans' hd'
              match i, j with
              | 0, 0 => rfl
              | 0, j + 1 =>
                obtain rfl : num' = num := by simpa using hi.symm
                show some x = xs.get? j
                exact (key j (by simpa using hj)).symm
              | i + 1, 0 =>
                obtain rfl : num' = num := by simpa using hj.symm
                show xs.get? i = some x
                exact key i (by simpa using hi)
              | i + 1, j + 1 =>
                exact I i j num' (by simpa using hi) (by simpa using hj) hans' hd'
        · -- unresolved number occurring once: plain class
          rw [show refMatch a dupes (num :: rest) dd env (x :: xs) =
              (decide (x ∈ a.possibles num) && refMatch a dupes rest dd env xs) from by
                simp [refMatch, hans, hd]] at hm
          rw [Bool.and_eq_true, decide_eq_true_eq] at hm
          obtain ⟨hxp, hrec⟩ := hm
          obtain ⟨L, P, K, I⟩ := ih dd env xs hrec hlen hinv
          refine ⟨by simpa using L, ?_, ?_, ?_⟩
          · intro j num' x' hj hx
            cases j with
            | zero =>
              obtain rfl : num' = num := by simpa using hj.symm
              obtain rfl : x' = x := by simpa using hx.symm
              exact ⟨fun ans' hans' => absurd (hans ▸ hans') (by simp), fun _ => hxp⟩
            | succ j => exact P j num' x' (by simpa using hj) (by simpa using hx)
          · intro j num' x' hj hx hans' hd' hmem'
            cases j with
            | zero =>
              obtain rfl : num' = num := by simpa using hj.symm
              exact absurd hd' hd
            | succ j => exact K j num' x' (by simpa using hj) (by simpa using hx) hans' hd' hmem'
          · intro i j num' hi hj hans' hd'
            match i, j with
            | 0, 0 => rfl
            | 0, j + 1 =>
              obtain rfl : num' = num := by simpa using hi.symm
              exact absurd hd' hd
            | i + 1, 0 =>
              obtain rfl : num' = num := by simpa using hj.symm
              exact absurd hd' hd
            | i + 1, j + 1 =>
              exact I i j num' (by simpa using hi) (by simpa using hj) hans' hd'
      · -- resolved number: literal
        rw [show refMatch a dupes (num :: rest) dd env (x :: xs) =
            (decide (x = ans) && refMatch a dupes rest dd env xs) from by
              simp [refMatch, hans]] at hm
        rw [Bool.and_eq_true, decide_eq_true_eq] at hm
        obtain ⟨hx0, hrec⟩ := hm
        obtain ⟨L, P, K, I⟩ := ih dd env xs hrec hlen hinv
        refine ⟨by simpa using L, ?_, ?_, ?_⟩
        · intro j num' x' hj hx
          cases j with
          | zero =>
            obtain rfl : num' = num := by simpa using hj.symm
            obtain rfl : x' = x := by simpa using hx.symm
            refine ⟨fun ans' hans' => ?_, fun hnone => absurd (hans ▸ hnone) (by simp)⟩
            rw [hans] at hans'
            obtain rfl : ans = ans' := by simpa using hans'
            exact hx0
          | succ j => exact P j num' x' (by simpa using hj) (by simpa using hx)
        · intro j num' x' hj hx hans' hd' hmem'
          cases j with
          | zero =>
            obtain rfl : num' = num := by simpa using hj.symm
            exact absurd (hans ▸ hans') (by simp)
          | succ j => exact K j num' x' (by simpa using hj) (by simpa using hx) hans' hd' hmem'
        · intro i j num' hi hj hans' hd'
          match i, j with
          | 0, 0 => rfl
          | 0, j + 1 =>
            obtain rfl : num' = num := by simpa using hi.symm
            exact absurd (hans ▸ hans') (by simp)
          | i + 1, 0 =>
            obtain rfl : num' = num := by simpa using hj.symm
            exact absurd (hans ▸ hans') (by simp)
          | i + 1, j + 1 =>
            exact I i j num' (by simpa using hi) (by simpa using hj) hans' hd'

/-- Shape of the token at each position of the pattern, relative to the
`done_dupes` table `dd`: a resolved number yields its literal answer at
every occurrence; an unresolved number outside the duplicate set yields a
plain class of its sorted candidates; an unresolved duplicate yields a
capturing class at its first occurrence (not in the table, no earlier
occurrence) and a back-reference at every later occurrence. -/
theorem calcRegexpGo_shape (a : Alphabet) (dupes : ℕ → Bool) :
    ∀ (rest : List ℕ) (dd : List ℕ) (j num : ℕ), rest.get? j = some num →
      (∀ ans, a.answer num = some ans →
        (calcRegexpGo a dupes rest dd).get? j = some (RTok.lit ans)) ∧
      (a.answer num = none → dupes num = false →
        (calcRegexpGo a dupes rest dd).get? j =
          some (RTok.cls (Finset.sort (· ≤ ·) (a.possibles num)))) ∧
      (a.answer num = none → dupes num = true → num ∉ dd → num ∉ rest.take j →
        (calcRegexpGo a dupes rest dd).get? j =
          some (RTok.grp (Finset.sort (· ≤ ·) (a.possibles num)))) ∧
      (a.answer num = none → dupes num = true → (num ∈ dd ∨ num ∈ rest.take j) →
        ∃ k, (calcRegexpGo a dupes rest dd).get? j = some (RTok.bref k)) := by
  intro rest
  induction rest with
  | nil =>
    intro dd j num hj
    exact absurd hj (by simp)
  | cons m rest ih =>
    intro dd j num hj
    rcases hans : a.answer m with _ | ans
    · by_cases hd : dupes m = true
      · by_cases hmem : m ∈ dd
        · have hgo : calcRegexpGo a dupes (m :: rest) dd =
              RTok.bref (dd.indexOf m + 1) :: calcRegexpGo a dupes rest dd := by
            simp [calcRegexpGo, hans, hd, hmem]
          cases j with
          | zero =>
            obtain rfl : m = num := by simpa using hj
            refine ⟨?_, ?_, ?_, ?_⟩
            · intro ans' h'
              rw [hans] at h'
              cases h'
            · intro _ h'
              simp [h'] at hd
            · intro _ _ hnd _
              exact absurd hmem hnd
            · intro _ _ _
              exact ⟨dd.indexOf m + 1, by rw [hgo]; rfl⟩
          | succ j =>
            have hj' : rest.get? j = some num := by simpa using hj
            obtain ⟨C1, C2, C3, C4⟩ := ih dd j num hj'
            rw [hgo]
            refine ⟨?_, ?_, ?_, ?_⟩
            · intro ans' h'
              rw [List.get?_cons_succ]
              exact C1 ans' h'
            · intro h1 h2
              rw [List.get?_cons_succ]
              exact C2 h1 h2
            · intro h1 h2 hnd hnt
              rw [List.take_succ_cons] at hnt
              rw [List.get?_cons_succ]
              exact C3 h1 h2 hnd fun hc => hnt (List.mem_cons_of_mem m hc)
            · intro h1 h2 hor
              rw [List.take_succ_cons] at hor
              rw [List.get?_cons_succ]
              refine C4 h1 h2 ?_
              rcases hor with hor | hor
              · exact Or.inl hor
              · rcases List.mem_cons.mp hor with rfl | hor
                · exact Or.inl hmem
                · exact Or.inr hor
        · have hgo : calcRegexpGo a dupes (m :: rest) dd =
              RTok.grp (Finset.sort (· ≤ ·) (a.possibles m)) ::
                calcRegexpGo a dupes rest (dd ++ [m]) := by
            simp [calcRegexpGo, hans, hd, hmem]
          cases j with
          | zero =>
            obtain rfl : m = num := by simpa using hj
            refine ⟨?_, ?_, ?_, ?_⟩
            · intro ans' h'
              rw [hans] at h'
              cases h'
            · intro _ h'
              simp [h'] at hd
            · intro _ _ _ _
              rw [hgo]
              rfl
            · intro _ _ hor
              rcases hor with hor | hor
              · exact absurd hor hmem
              · simp at hor
          | succ j =>
            have hj' : rest.get? j = some num := by simpa using hj
            obtain ⟨C1, C2, C3, C4⟩ := ih (dd ++ [m]) j num hj'
            rw [hgo]
            refine ⟨?_, ?_, ?_, ?_⟩
            · intro ans' h'
              rw [List.get?_cons_succ]
              exact C1 ans' h'
            · intro h1 h2
              rw [List.get?_cons_succ]
              exact C2 h1 h2
            · intro h1 h2 hnd hnt
              rw [List.take_succ_cons] at hnt
              rw [List.get?_cons_succ]
              have hne : num ≠ m := fun he => hnt (he ▸ List.mem_cons_self m (rest.take j))
              refine C3 h1 h2 ?_ fun hc => hnt (List.mem_cons_of_mem m hc)
              intro hc
              rcases List.mem_append.mp hc with hc | hc
              · exact hnd hc
              · exact hne (by simpa using hc)
            · intro h1 h2 hor
              rw [List.take_succ_cons] at hor
              rw [List.get?_cons_succ]
              refine C4 h1 h2 ?_
              rcases hor with hor | hor
              · exact Or.inl (List.mem_append.mpr (Or.inl hor))
              · rcases List.mem_cons.mp hor with rfl | hor
                · exact Or.inl (List.mem_append.mpr (Or.inr (by simp)))
                · exact Or.inr hor
      · have hgo : calcRegexpGo a dupes (m :: rest) dd =
            RTok.cls (Finset.sort (· ≤ ·) (a.possibles m)) ::
              calcRegexpGo a dupes rest dd := by
          simp [calcRegexpGo, hans, hd]
        cases j with
        | zero =>
          obtain rfl : m = num := by simpa using hj
          refine ⟨?_, ?_, ?_, ?_⟩
          · intro ans' h'
            rw [hans] at h'
            cases h'
          · intro _ _
            rw [hgo]
            rfl
          · intro _ h2 _ _
            exact absurd h2 hd
          · intro _ h2 _
            exact absurd h2 hd
        | succ j =>
          have hj' : rest.get? j = some num := by simpa using hj
          obtain ⟨C1, C2, C3, C4⟩ := ih dd j num hj'
          rw [hgo]
          refine ⟨?_, ?_, ?_, ?_⟩
          · intro ans' h'
            rw [List.get?_cons_succ]
            exact C1 ans' h'
          · intro h1 h2
            rw [List.get?_cons_succ]
            exact C2 h1 h2
          · intro h1 h2 hnd hnt
            rw [List.take_succ_cons] at hnt
            rw [List.get?_cons_succ]
            exact C3 h1 h2 hnd fun hc => hnt (List.mem_cons_of_mem m hc)
          · intro h1 h2 hor
            rw [List.take_succ_cons] at hor
            rw [List.get?_cons_succ]
            refine C4 h1 h2 ?_
            rcases hor with hor | hor
            · exact Or.inl hor
            · rcases List.mem_cons.mp hor with rfl | hor
              · exact absurd h2 hd
              · exact Or.inr hor
    · have hgo : calcRegexpGo a dupes (m :: rest) dd =
          RTok.lit ans :: calcRegexpGo a dupes rest dd := by
        simp [calcRegexpGo, hans]
      cases j with
      | zero =>
        obtain rfl : m = num := by simpa using hj
        refine ⟨?_, ?_, ?_, ?_⟩
        · intro ans' h'
          rw [hans] at h'
          injection h' with h''
          rw [hgo, h'']
          rfl
        · intro h1 _
          rw [hans] at h1
          cases h1
        · intro h1 _ _ _
          rw [hans] at h1
          cases h1
        · intro h1 _ _
          rw [hans] at h1
          cases h1
      | succ j =>
        have hj' : rest.get? j = some num := by simpa using hj
        obtain ⟨C1, C2, C3, C4⟩ := ih dd j num hj'
        rw [hgo]
        refine ⟨?_, ?_, ?_, ?_⟩
        · intro ans' h'
          rw [List.get?_cons_succ]
          exact C1 ans' h'
        · intro h1 h2
          rw [List.get?_cons_succ]
          exact C2 h1 h2
        · intro h1 h2 hnd hnt
          rw [List.take_succ_cons] at hnt
          rw [List.get?_cons_succ]
          exact C3 h1 h2 hnd fun hc => hnt (List.mem_cons_of_mem m hc)
        · intro h1 h2 hor
          rw [List.take_succ_cons] at hor
          rw [List.get?_cons_succ]
          refine C4 h1 h2 ?_
          rcases hor with hor | hor
          · exact Or.inl hor
          · rcases List.mem_cons.mp hor with rfl | hor
            · rw [hans] at h1
              cases h1
            · exact Or.inr hor

/-- Two occurrences of a number before and after a split both contribute
to its count. -/
theorem count_gt_one_aux (p : List ℕ) (i j num : ℕ) (hi : p.get? i = some num)
    (hj : p.get? j = some num) (hlt : i < j) : 1 < p.count num := by
  have h1 : num ∈ p.take (i + 1) :=
    List.get?_mem (by rw [List.get?_take (Nat.lt_succ_self i)]; exact hi)
  have h2 : num ∈ p.drop (i + 1) :=
    List.get?_mem (by rw [List.get?_drop, show i + 1 + (j - (i + 1)) = j by omega]; exact hj)
  have hc1 : 0 < (p.take (i + 1)).count num := List.count_pos_iff.mpr h1
  have hc2 : 0 < (p.drop (i + 1)).count num := List.count_pos_iff.mpr h2
  have hs := List.count_append num (p.take (i + 1)) (p.drop (i + 1))
  rw [List.take_append_drop] at hs
  omega

/-- A number found at two distinct positions occurs more than once. -/
theorem count_gt_one_of_get_ne (p : List ℕ) (i j num : ℕ) (hi : p.get? i = some num)
    (hj : p.get? j = some num) (hne : i ≠ j) : 1 < p.count num := by
  rcases Nat.lt_or_ge i j with hlt | hge
  · exact count_gt_one_aux p i j num hi hj hlt
  · exact count_gt_one_aux p j i num hj hi (by omega)

/-- C5.  In the pattern built for a puzzle: a resolved number yields its
literal answer at every occurrence (also when repeated); an unresolved
number occurring once yields a plain class of its sorted candidates; an
unresolved number occurring more than once yields a capturing class at
its first occurrence and a back-reference at every later occurrence
(first conjunct).  Matching is anchored and position-by-position: a
matching word has the puzzle's length, decodes every resolved position to
the literal, every unresolved position to one of the slot's candidates,
and all positions sharing an unresolved number to the same letter
(second conjunct — the forcing of positional identity, for arbitrary
states, puzzles and words, hence for every capture group).  The concrete
instances: the claim's puzzle `[2,3,1,3]` with slot 1 solved to 'a'
(class, capture, literal, back-reference, and the matching equivalence in
which positions 2 and 4 are forced equal and position 1 is independent),
the puzzle `[2,3,1,3,2,3]` with two capture groups and back-references
`\2 \1 \2`, and the puzzle `[1,3,1,3]` in which the repeated resolved
number 1 repeats its literal instead of capturing. -/
theorem C5_duplicate_backreference :
    (∀ (a : Alphabet) (p : List ℕ) (j num : ℕ), p.get? j = some num →
      (∀ ans, a.answer num = some ans →
        (calc_regexp a p).get? j = some (RTok.lit ans)) ∧
      (a.answer num = none → ¬1 < p.count num →
        (calc_regexp a p).get? j = some (RTok.cls (Finset.sort (· ≤ ·) (a.possibles num)))) ∧
      (a.answer num = none → 1 < p.count num → num ∉ p.take j →
        (calc_regexp a p).get? j = some (RTok.grp (Finset.sort (· ≤ ·) (a.possibles num)))) ∧
      (a.answer num = none → 1 < p.count num → num ∈ p.take j →
        ∃ k, (calc_regexp a p).get? j = some (RTok.bref k))) ∧
    (∀ (a : Alphabet) (p : List ℕ) (w : List Char),
      rmatch (calc_regexp a p) w [] = true →
      w.length = p.length ∧
      (∀ j num x, p.get? j = some num → w.get? j = some x →
        (∀ ans, a.answer num = some ans → x = ans) ∧
        (a.answer num = none → x ∈ a.possibles num)) ∧
      (∀ i j num, p.get? i = some num → p.get? j = some num → a.answer num = none →
        w.get? i = w.get? j)) ∧
    (alpha5.answer 1 = some 'a' ∧ alpha5.answer 2 = none ∧ alpha5.answer 3 = none) ∧
    calc_regexp alpha5 [2, 3, 1, 3] =
      [RTok.cls noA, RTok.grp noA, RTok.lit 'a', RTok.bref 1] ∧
    calc_regexp alpha5 [2, 3, 1, 3, 2, 3] =
      [RTok.grp noA, RTok.grp noA, RTok.lit 'a', RTok.bref 2, RTok.bref 1, RTok.bref 2] ∧
    calc_regexp alpha5 [1, 3, 1, 3] =
      [RTok.lit 'a', RTok.grp noA, RTok.lit 'a', RTok.bref 1] ∧
    ∀ w1 w2 w3 w4 : Char,
      rmatch (calc_regexp alpha5 [2, 3, 1, 3]) [w1, w2, w3, w4] [] = true ↔
        (w1 ∈ noA ∧ w2 ∈ noA ∧ w3 = 'a' ∧ w4 = w2) := by
  have htoks1 : calc_regexp alpha5 [2, 3, 1, 3] =
      [RTok.cls noA, RTok.grp noA, RTok.lit 'a', RTok.bref 1] := by
    simp [calc_regexp, calcRegexpGo, alpha5_ans1, alpha5_ans2, alpha5_ans3,
      alpha5_sort2, alpha5_sort3, List.count_cons]
  have htoks2 : calc_regexp alpha5 [2, 3, 1, 3, 2, 3] =
      [RTok.grp noA, RTok.grp noA, RTok.lit 'a', RTok.bref 2, RTok.bref 1, RTok.bref 2] := by
    simp [calc_regexp, calcRegexpGo, alpha5_ans1, alpha5_ans2, alpha5_ans3,
      alpha5_sort2, alpha5_sort3, List.count_cons, List.indexOf_cons_self,
      List.indexOf_cons_ne]
  have htoks3 : calc_regexp alpha5 [1, 3, 1, 3] =
      [RTok.lit 'a', RTok.grp noA, RTok.lit 'a', RTok.bref 1] := by
    simp [calc_regexp, calcRegexpGo, alpha5_ans1, alpha5_ans3, alpha5_sort3,
      List.count_cons]
  refine ⟨?_, ?_, ⟨alpha5_ans1, alpha5_ans2, alpha5_ans3⟩, htoks1, htoks2, htoks3, ?_⟩
  · intro a p j num hj
    obtain ⟨C1, C2, C3, C4⟩ :=
      calcRegexpGo_shape a (fun num => decide (1 < p.count num)) p [] j num hj
    refine ⟨C1, ?_, ?_, ?_⟩
    · intro h1 h2
      exact C2 h1 (decide_eq_false h2)
    · intro h1 h2 hnt
      exact C3 h1 (decide_eq_true h2) (by simp) hnt
    · intro h1 h2 hmm
      exact C4 h1 (decide_eq_true h2) (Or.inr hmm)
  · intro a p w h
    have h' : refMatch a (fun num => decide (1 < p.count num)) p [] [] w = true := by
      rw [← rmatch_go_eq_ref]
      exact h
    obtain ⟨L, P, K, I⟩ := refMatch_sound a (fun num => decide (1 < p.count num)) p [] [] w
      h' rfl (fun num hn => absurd hn (List.not_mem_nil num))
    refine ⟨L, P, ?_⟩
    intro i j num hi hj hans
    by_cases hij : i = j
    · rw [hij]
    · exact I i j num hi hj hans (decide_eq_true (count_gt_one_of_get_ne p i j num hi hj hij))
  · intro w1 w2 w3 w4
    rw [htoks1]
    simp only [rmatch, List.nil_append, Nat.sub_self, List.get?_cons_zero, Bool.and_true,
      Bool.and_eq_true, decide_eq_true_eq, Option.some.injEq]
    constructor
    · rintro ⟨h1, h2, h3, h4⟩
      exact ⟨h1, h2, h3, h4.symm⟩
    · rintro ⟨h1, h2, h3, h4⟩
      exact ⟨h1, h2, h3, h4.symm⟩

/-- Witness instantiating C5 at concrete inputs: "bcac" (equal letters at
the two positions of number 3, 'a' at the solved position) matches; the
structural clause puts a back-reference at the second occurrence of 3;
the semantic clause gives the matched word the puzzle's length. -/
theorem C5_witness :
    rmatch (calc_regexp alpha5 [2, 3, 1, 3]) ['b', 'c', 'a', 'c'] [] = true ∧
    (∃ k, (calc_regexp alpha5 [2, 3, 1, 3]).get? 3 = some (RTok.bref k)) ∧
    (['b', 'c', 'a', 'c'] : List Char).length = ([2, 3, 1, 3] : List ℕ).length :=
  have h : rmatch (calc_regexp alpha5 [2, 3, 1, 3]) ['b', 'c', 'a', 'c'] [] = true :=
    (C5_duplicate_backreference.2.2.2.2.2.2 'b' 'c' 'a' 'c').mpr (by decide)
  ⟨h,
   (C5_duplicate_backreference.1 alpha5 [2, 3, 1, 3] 3 3 (by decide)).2.2.2
     (by decide) (by decide) (by decide),
   (C5_duplicate_backreference.2.1 alpha5 [2, 3, 1, 3] ['b', 'c', 'a', 'c'] h).1⟩

/-!
## C7: no dictionary match contributes no information
-/

/-- A dictionary scan in which no word matches leaves the fold state
untouched. -/
theorem foldl_possStep_id (puzzle : List ℕ) (toks : List RTok) :
    ∀ (d : List (List Char)) (st : Agg × Bool),
      (∀ w ∈ d, rmatch toks w [] = false) →
      d.foldl (possStep puzzle toks) st = st := by
  intro d
  induction d with
  | nil => intro st _; rfl
  | cons w d ih =>
    intro st h
    rw [List.foldl_cons,
      show possStep puzzle toks st w = st from by
        simp [possStep, h w (List.mem_cons_self w d)]]
    exact ih st fun w' hw' => h w' (List.mem_cons_of_mem w hw')

/-- C7.  When no dictionary word matches the pattern, `get_possibles`
returns the empty dict (the `matched` flag stays false), and therefore
`solve_puzzle` performs no `update` at all: the Alphabet state is returned
unchanged. -/
theorem C7_no_match_no_change (puzzle : List ℕ) (toks : List RTok)
    (dictionary : List (List Char)) (a : Alphabet) :
    ((∀ w ∈ dictionary, rmatch toks w [] = false) →
      get_possibles puzzle toks dictionary = Agg.empty) ∧
    ((∀ w ∈ dictionary, rmatch (calc_regexp a puzzle) w [] = false) →
      solve_puzzle a puzzle dictionary = a) := by
  constructor
  · intro h
    unfold get_possibles
    rw [foldl_possStep_id puzzle toks dictionary _ h]
    rfl
  · intro h
    have hg : get_possibles puzzle (calc_regexp a puzzle) dictionary = Agg.empty := by
      unfold get_possibles
      rw [foldl_possStep_id puzzle _ dictionary _ h]
      rfl
    unfold solve_puzzle
    rw [hg]
    rfl

/-- The words of the concrete no-match and aggregation scenarios. -/
def dogW : List Char := ['d', 'o', 'g']

def birdW : List Char := ['b', 'i', 'r', 'd']

def catW : List Char := ['c', 'a', 't']

def cutW : List Char := ['c', 'u', 't']

/-- The pattern `^c[aeiou]t$` of the spec's matching scenarios. -/
def toksCVT : List RTok := [RTok.lit 'c', RTok.cls ['a', 'e', 'i', 'o', 'u'], RTok.lit 't']

/-- The pattern built for puzzle `[1,2]` on a fresh Alphabet: two full
character classes. -/
theorem init_tokens12 : calc_regexp Alphabet.init [1, 2] =
    [RTok.cls lowercaseList, RTok.cls lowercaseList] := by
  simp [calc_regexp, calcRegexpGo, List.count_cons,
    show Alphabet.init.answer 1 = none from rfl,
    show Alphabet.init.answer 2 = none from rfl,
    show Alphabet.init.possibles 1 = asciiLowercase from rfl,
    show Alphabet.init.possibles 2 = asciiLowercase from rfl,
    sort_asciiLowercase]

/-- Witness for C7 at concrete inputs: the dictionary `[dog, bird]` has no
word matching `^c[aeiou]t$`, and `solve_puzzle` on puzzle `[1,2]` with
dictionary `[dog]` (no two-letter word) leaves the fresh Alphabet
unchanged. -/
theorem C7_witness :
    get_possibles [1, 2, 3] toksCVT [dogW, birdW] = Agg.empty ∧
    solve_puzzle Alphabet.init [1, 2] [dogW] = Alphabet.init :=
  ⟨(C7_no_match_no_change [1, 2, 3] toksCVT [dogW, birdW] Alphabet.init).1 (by decide),
   (C7_no_match_no_change [1, 2] [] [dogW] Alphabet.init).2 (by rw [init_tokens12]; decide)⟩

/-!
## C8: malformed input lines
-/

/-- C8.  Parsing is not always recoverable: a clue line whose number part
is out of range ("A=27": the `KeyError` from `self._letters[27]`) or not
numeric ("A=x": the `ValueError` from `int("x")`, raised outside the
`try`) aborts the run — only `extract_puzzles` skips its bad lines (a
non-numeric token and an out-of-range number shown in the third
conjunct). -/
theorem C8_clue_line_crash :
    extract_clues Alphabet.init [['A', '=', '2', '7']] = Except.error ['A', '=', '2', '7'] ∧
    extract_clues Alphabet.init [['A', '=', 'x']] = Except.error ['A', '=', 'x'] ∧
    extract_puzzles [['1', ' ', 'a'], ['1', ' ', '2', '7'], ['1', ' ', '2']] = [[1, 2]] :=
  ⟨rfl, rfl, by decide⟩

/-!
## C10: aggregation over matching words
-/

/-- Membership in the aggregate after one `add`. -/
theorem Agg.add_val_mem (g : Agg) (n : ℕ) (c : Char) (m : ℕ) (c' : Char) :
    c' ∈ (g.add n c).val m ↔ c' ∈ g.val m ∨ (m = n ∧ c' = c) := by
  show c' ∈ Function.update g.val n (insert c (g.val n)) m ↔ _
  rw [Function.update_apply]
  split_ifs with h
  · subst h
    simp [Finset.mem_insert, or_comm]
  · simp [h]

/-- Membership in the aggregate after aggregating one word: the old
contents, plus the word's letter at any position carrying the number. -/
theorem addWord_val_mem :
    ∀ (ns : List ℕ) (cs : List Char) (g : Agg) (m : ℕ) (c : Char),
      c ∈ (addWord g ns cs).val m ↔
        c ∈ g.val m ∨ ∃ i, ns.get? i = some m ∧ cs.get? i = some c := by
  intro ns
  induction ns with
  | nil =>
    intro cs g m c
    simp [addWord]
  | cons n ns ih =>
    intro cs g m c
    cases cs with
    | nil => simp [addWord]
    | cons c0 cs =>
      rw [show addWord g (n :: ns) (c0 :: cs) = addWord (g.add n c0) ns cs from rfl]
      rw [ih cs (g.add n c0) m c, Agg.add_val_mem]
      constructor
      · rintro ((hg | ⟨hm, hc⟩) | ⟨i, h1, h2⟩)
        · exact Or.inl hg
        · exact Or.inr ⟨0, by simp [hm], by simp [hc]⟩
        · exact Or.inr ⟨i + 1, by simpa using h1, by simpa using h2⟩
      · rintro (hg | ⟨i, h1, h2⟩)
        · exact Or.inl (Or.inl hg)
        · cases i with
          | zero =>
            simp only [List.get?_cons_zero, Option.some.injEq] at h1 h2
            exact Or.inl (Or.inr ⟨h1.symm, h2.symm⟩)
          | succ i =>
            simp only [List.get?_cons_succ] at h1 h2
            exact Or.inr ⟨i, h1, h2⟩

/-- The `matched` flag after the scan: true exactly when some word of the
dictionary matched. -/
theorem foldl_possStep_flag (puzzle : List ℕ) (toks : List RTok) :
    ∀ (d : List (List Char)) (st : Agg × Bool),
      (d.foldl (possStep puzzle toks) st).2 = (st.2 || d.any fun w => rmatch toks w []) := by
  intro d
  induction d with
  | nil => intro st; simp
  | cons w d ih =>
    intro st
    cases hr : rmatch toks w [] <;>
      simp [List.foldl_cons, possStep, hr, ih, List.any_cons, Bool.or_assoc]

/-- Membership in the aggregate of the whole scan: the starting contents,
plus every letter observed at a position of the number in some matching
word. -/
theorem foldl_possStep_val (puzzle : List ℕ) (toks : List RTok) :
    ∀ (d : List (List Char)) (st : Agg × Bool) (m : ℕ) (c : Char),
      c ∈ ((d.foldl (possStep puzzle toks) st).1).val m ↔
        c ∈ st.1.val m ∨ ∃ w, w ∈ d ∧ rmatch toks w [] = true ∧
          ∃ i, puzzle.get? i = some m ∧ w.get? i = some c := by
  intro d
  induction d with
  | nil =>
    intro st m c
    simp
  | cons w d ih =>
    intro st m c
    rw [List.foldl_cons]
    cases hr : rmatch toks w []
    · rw [show possStep puzzle toks st w = st from by simp [possStep, hr], ih]
      constructor
      · rintro (h | ⟨w', hw', hm, hi⟩)
        · exact Or.inl h
        · exact Or.inr ⟨w', List.mem_cons_of_mem w hw', hm, hi⟩
      · rintro (h | ⟨w', hw', hm, hi⟩)
        · exact Or.inl h
        · rcases List.mem_cons.mp hw' with rfl | hw'
          · rw [hr] at hm
            cases hm
          · exact Or.inr ⟨w', hw', hm, hi⟩
    · rw [show possStep puzzle toks st w = (addWord st.1 puzzle w, true) from by
        simp [possStep, hr], ih]
      show c ∈ (addWord st.1 puzzle w).val m ∨ _ ↔ _
      rw [addWord_val_mem]
      constructor
      · rintro ((h | ⟨i, hi⟩) | ⟨w', hw', hm, hii⟩)
        · exact Or.inl h
        · exact Or.inr ⟨w, List.mem_cons_self w d, hr, ⟨i, hi⟩⟩
        · exact Or.inr ⟨w', List.mem_cons_of_mem w hw', hm, hii⟩
      · rintro (h | ⟨w', hw', hm, hii⟩)
        · exact Or.inl (Or.inl h)
        · rcases List.mem_cons.mp hw' with rfl | hw'
          · exact Or.inl (Or.inr hii)
          · exact Or.inr ⟨w', hw', hm, hii⟩

/-- C10.  The aggregate returned by `get_possibles` contains, under each
slot number, exactly the letters observed — across all dictionary words
fully matching the anchored pattern — at the puzzle positions carrying
that number; in particular on the spec's scenario (dictionary
`[cat, dog, cut]`, puzzle `[1,2,3]`, pattern `^c[aeiou]t$`) it is
`{1 ↦ {c}, 2 ↦ {u,a}, 3 ↦ {t}}`. -/
theorem C10_aggregation_correct :
    (∀ (puzzle : List ℕ) (toks : List RTok) (dictionary : List (List Char)) (n : ℕ) (c : Char),
        c ∈ (get_possibles puzzle toks dictionary).val n ↔
          ∃ w, w ∈ dictionary ∧ rmatch toks w [] = true ∧
            ∃ i, puzzle.get? i = some n ∧ w.get? i = some c) ∧
    ((get_possibles [1, 2, 3] toksCVT [catW, dogW, cutW]).val 1 = {'c'} ∧
     (get_possibles [1, 2, 3] toksCVT [catW, dogW, cutW]).val 2 = {'u', 'a'} ∧
     (get_possibles [1, 2, 3] toksCVT [catW, dogW, cutW]).val 3 = {'t'}) := by
  constructor
  · intro puzzle toks dictionary n c
    unfold get_possibles
    split_ifs with hflag
    · rw [foldl_possStep_val]
      simp [Agg.empty]
    · rw [foldl_possStep_flag] at hflag
      simp only [Bool.false_or] at hflag
      refine iff_of_false ?_ ?_
      · simp [Agg.empty]
      · rintro ⟨w, hw, hm, -⟩
        exact hflag (List.any_eq_true.mpr ⟨w, hw, hm⟩)
  · exact ⟨by decide, by decide, by decide⟩

/-- Witness instantiating C6 at concrete inputs. -/
theorem C6_witness :
    (Letter.init.update {'c', 'a', 't'}).possibles = Letter.init.possibles ∩ {'c', 'a', 't'} ∧
    (Letter.init.update {'c', 'a', 't'}).possibles ⊆ Letter.init.possibles ∧
    (Letter.init.remove 'i').possibles ⊆ Letter.init.possibles ∧
    (Letter.init.update {'c', 'a', 't'}).possibles.card ≤ Letter.init.possibles.card ∧
    (Letter.init.remove 'i').possibles.card ≤ Letter.init.possibles.card :=
  C6_monotonic_narrowing Letter.init {'c', 'a', 't'} 'i'

/-- Witness instantiating C10's membership equivalence: 'u' is aggregated
under number 2 because "cut" matches and carries 'u' at position 2. -/
theorem C10_witness :
    'u' ∈ (get_possibles [1, 2, 3] toksCVT [catW, dogW, cutW]).val 2 :=
  (C10_aggregation_correct.1 [1, 2, 3] toksCVT [catW, dogW, cutW] 2 'u').mpr
    ⟨cutW, by decide, by decide, 1, by decide, by decide⟩
